import Mathlib

/-!
Verification of the setk multichannel audio toolkit's numerical core against
its specification.  The Python sources are shallowly embedded:

* `scripts/sptk/apply_auxiva.py` (`auxiva`)           — section `Auxiva`
* `scripts/sptk/libs/ssl.py` (`ml_ssl`, `srp_ssl`, `music_ssl`) — section `Ssl`
* `scripts/sptk/compute_ipd_and_linear_srp.py` (`compute_spatial_feats`,
  "ipd" branch)                                        — section `Ipd`
* `scripts/sptk/oracle_separate.py` (`compute_mask`)   — section `Oracle`

Complex spectra are modelled over `ℂ`, real quantities over `ℝ`; numpy's
`np.linalg.solve` failure on a singular system is modelled with `Option`,
and shape errors (raised by numpy's einsum / broadcasting) with `Except`.
The module-level constant `EPSILON` of `libs/utils.py` is not under `src/`;
following the spec ("ε a small positive stabilizer") it is threaded through
as an explicit parameter `eps`.
-/

open scoped BigOperators
open scoped Matrix

noncomputable section

/-- First index of the maximum of `f` over `0, …, A-1` (semantics of
`np.argmax` on a 1-D array: ties resolved to the earliest index). -/
def argmaxR (A : ℕ) (f : ℕ → ℝ) : ℕ :=
  (List.range A).foldl (fun best i => if f best < f i then i else best) 0

/-- First index of the minimum of `f` over `0, …, A-1` (semantics of
`np.argmin` on a 1-D array). -/
def argminR (A : ℕ) (f : ℕ → ℝ) : ℕ :=
  (List.range A).foldl (fun best i => if f i < f best then i else best) 0

namespace Auxiva

variable {N T F : ℕ}

/-- `X = X.transpose([2, 1, 0])` of `apply_auxiva.py` line 33: the mixture
`N x T x F` viewed as `F x T x N`. -/
def Xt (X : Fin N → Fin T → Fin F → ℂ) : Fin F → Fin T → Fin N → ℂ :=
  fun f t n => X n t f

/-- Line 35: per-bin demixing matrices, all initialized to the identity. -/
def Winit : Fin F → Matrix (Fin N) (Fin N) ℂ := fun _ => 1

/-- Lines 38/54: `Y = np.einsum("...tn,...nx->...tx", X, np.conj(W))`,
i.e. `Y[f,t,x] = Σ_n X[f,t,n] · conj(W[f][n,x])` (apply `Wᴴ` per bin/frame). -/
def demixY (Xf : Fin F → Fin T → Fin N → ℂ)
    (W : Fin F → Matrix (Fin N) (Fin N) ℂ) : Fin F → Fin T → Fin N → ℂ :=
  fun f t x => ∑ n, Xf f t n * star (W f n x)

/-- Line 42: `R = np.sqrt(np.sum(np.abs(Y) ** 2, axis=0))`, the `T x N`
energy envelope. -/
def Renv (Y : Fin F → Fin T → Fin N → ℂ) (t : Fin T) (n : Fin N) : ℝ :=
  Real.sqrt (∑ f, (Complex.abs (Y f t n)) ^ 2)

/-- Line 44: `Gr = 1 / (R.T + EPSILON)`, the `N x T` per-frame weights. -/
def Gr (eps : ℝ) (Y : Fin F → Fin T → Fin N → ℂ) (n : Fin N) (t : Fin T) : ℝ :=
  1 / (Renv Y t n + eps)

/-- Lines 48-49: the weighted covariance
`V = (Gr[n][None, :] * X[f].T) @ conj(X[f]) / T`, i.e.
`V[a,b] = (Σ_t Gr[n,t] · X[f,t,a] · conj(X[f,t,b])) / T`. -/
def Vmat (Xf : Fin F → Fin T → Fin N → ℂ) (g : Fin T → ℝ) (f : Fin F) :
    Matrix (Fin N) (Fin N) ℂ :=
  fun a b => (∑ t, (g t : ℂ) * Xf f t a * star (Xf f t b)) / (T : ℂ)

/-- Lines 51-52: solve `(conj(W[f].T) @ V) w = I[n]` — `np.linalg.solve`
raises `LinAlgError` on a singular system, modelled by `none` — then write
`w / np.inner(np.conj(w), V @ w)` into column `n` of `W[f]`. -/
def colUpdate (V Wf : Matrix (Fin N) (Fin N) ℂ) (n : Fin N) :
    Option (Matrix (Fin N) (Fin N) ℂ) :=
  if (Wfᴴ * V).det = 0 then none
  else
    let w : Fin N → ℂ := (Wfᴴ * V)⁻¹.mulVec (Pi.single n 1)
    let d : ℂ := ∑ i, star (w i) * V.mulVec w i
    some (Wf.updateColumn n (fun r => w r / d))

/-- The inner `for n in range(N)` loop of lines 46-52 applied to the first
`n` source indices (sequential column updates on one bin's matrix). -/
def binCols (V : Fin N → Matrix (Fin N) (Fin N) ℂ)
    (Wf : Matrix (Fin N) (Fin N) ℂ) : ℕ → Option (Matrix (Fin N) (Fin N) ℂ)
  | 0 => some Wf
  | n + 1 => (binCols V Wf n).bind fun Wc =>
      if h : n < N then colUpdate (V ⟨n, h⟩) Wc ⟨n, h⟩ else some Wc

/-- The outer `for f in range(F)` loop of lines 45-52 applied to the first
`f` frequency bins. -/
def binsFold (Xf : Fin F → Fin T → Fin N → ℂ) (g : Fin N → Fin T → ℝ)
    (W : Fin F → Matrix (Fin N) (Fin N) ℂ) :
    ℕ → Option (Fin F → Matrix (Fin N) (Fin N) ℂ)
  | 0 => some W
  | f + 1 => (binsFold Xf g W f).bind fun Wc =>
      if h : f < F then
        (binCols (fun n => Vmat Xf (g n) ⟨f, h⟩) (Wc ⟨f, h⟩) N).map
          (fun Wf' => Function.update Wc ⟨f, h⟩ Wf')
      else some Wc

/-- One epoch of the `for _ in range(epochs)` loop (lines 40-54): compute the
weights from the current separated output, then update every bin. -/
def epochStep (eps : ℝ) (Xf : Fin F → Fin T → Fin N → ℂ)
    (W : Fin F → Matrix (Fin N) (Fin N) ℂ) :
    Option (Fin F → Matrix (Fin N) (Fin N) ℂ) :=
  binsFold Xf (Gr eps (demixY Xf W)) W F

/-- The demixing-matrix state after `k` epochs. -/
def runEpochs (eps : ℝ) (Xf : Fin F → Fin T → Fin N → ℂ) :
    ℕ → Option (Fin F → Matrix (Fin N) (Fin N) ℂ)
  | 0 => some Winit
  | k + 1 => (runEpochs eps Xf k).bind (epochStep eps Xf)

/-- `auxiva` of `apply_auxiva.py` lines 24-57: iterate, then return the
separated output transposed back to the `N x T x F` channel-major layout.
A `LinAlgError` escaping the per-bin solve aborts the whole call (`none`). -/
def auxiva (X : Fin N → Fin T → Fin F → ℂ) (epochs : ℕ) (eps : ℝ) :
    Option (Fin N → Fin T → Fin F → ℂ) :=
  (runEpochs eps (Xt X) epochs).map fun W => fun n t f => demixY (Xt X) W f t n

/-- Concrete 2-channel mixture (N = 2, T = 1, F = 1) whose second channel is
silent: the weighted covariance `V` is rank one, so the very first per-bin
solve hits a singular matrix. -/
def X2 : Fin 2 → Fin 1 → Fin 1 → ℂ := fun n _ _ => if n = 0 then 1 else 0

/-- Concrete 1-channel mixture (N = T = F = 1) with constant spectrum 2,
exhibiting the rescaling slip of line 52. -/
def X1 : Fin 1 → Fin 1 → Fin 1 → ℂ := fun _ _ _ => 2

/-- `EPSILON = np.finfo(np.float32).eps = 2⁻²³` of `libs/utils.py` (the
module is outside `src/`; the spec describes it as a small positive
stabilizer). -/
def eps32 : ℝ := 1 / 8388608

/-- The weighted covariance reached at the first column update
(epoch 1, bin 0, source 0) on the mixture `X1`. -/
def V1 : Matrix (Fin 1) (Fin 1) ℂ :=
  Vmat (Xt X1) (Gr eps32 (demixY (Xt X1) Winit) 0) 0

end Auxiva

/-! ## Shape and broadcasting semantics of the numpy operations in `ssl.py`

Arrays are modelled as total functions on `ℕ` indices together with explicit
axis lengths; sums range over `Finset.range`.  numpy raises shape errors from
inside the einsum / broadcast machinery, modelled with `Except`:

* two axis lengths broadcast iff they are equal or one of them is `1`
  (`bcompat`), the resulting length is `bdim`, and an index into a length-1
  axis is pinned to `0` (`bidx`, numpy's stride-0 broadcasting);
* einsum with explicit labels broadcasts length-1 labelled axes exactly
  like elementwise operations (only the output operand is exempt from
  broadcasting), so equally-labelled extents must be `bcompat`, contracted
  labels sum over the broadcast extent `bdim`, and size-1 operand axes are
  indexed with stride 0 (`bidx`);
* integer fancy-indexing of an axis of length `M` accepts `-M ≤ i < M`,
  wrapping negative indices (`idxOK` / `idxVal`), and raises `IndexError`
  otherwise;
* `np.argmax` / `np.argmin` raise on an empty axis.
-/

/-- Two axis lengths are numpy-broadcast-compatible. -/
def bcompat (a b : ℕ) : Prop := a = b ∨ a = 1 ∨ b = 1

instance (a b : ℕ) : Decidable (bcompat a b) := by
  unfold bcompat; infer_instance

/-- Resulting axis length when broadcasting two compatible lengths. -/
def bdim (a b : ℕ) : ℕ := if a = 1 then b else a

/-- Broadcast index into an axis of length `L` (stride 0 when `L = 1`). -/
def bidx (L i : ℕ) : ℕ := if L = 1 then 0 else i

/-- numpy integer index validity for an axis of length `M`. -/
def idxOK (M : ℕ) (i : ℤ) : Prop := -(M : ℤ) ≤ i ∧ i < M

instance (M : ℕ) (i : ℤ) : Decidable (idxOK M i) := by
  unfold idxOK; infer_instance

/-- Effective numpy index (negative indices wrap). -/
def idxVal (M : ℕ) (i : ℤ) : ℕ := (if i < 0 then i + M else i).toNat

/-- Time-frequency mask dimensions: `maskT`/`maskF`/`maskW` expand the
optional `mask` argument of `srp_ssl`/`music_ssl`, `None` standing for
`np.ones([T, F])`. -/
def maskT (T : ℕ) (mask : Option (ℕ × ℕ × (ℕ → ℕ → ℝ))) : ℕ :=
  match mask with
  | Option.none => T
  | Option.some z => z.1

/-- Frequency axis length of the (defaulted) mask. -/
def maskF (F : ℕ) (mask : Option (ℕ × ℕ × (ℕ → ℕ → ℝ))) : ℕ :=
  match mask with
  | Option.none => F
  | Option.some z => z.2.1

/-- Values of the (defaulted) mask. -/
def maskW (mask : Option (ℕ × ℕ × (ℕ → ℕ → ℝ))) : ℕ → ℕ → ℝ :=
  match mask with
  | Option.none => fun _ _ => 1
  | Option.some z => z.2.2

namespace Ssl

/-- The mask argument of `ml_ssl` (`T x F` or `N x T x F`, or absent). -/
inductive MLMask where
  | none
  | m2 (Tm Fm : ℕ) (m : ℕ → ℕ → ℝ)
  | m3 (Nm Tm Fm : ℕ) (m : ℕ → ℕ → ℕ → ℝ)

/-- Return value of `ml_ssl`: a single DoA index, or one per source when the
mask carries a source axis. -/
inductive MLOut where
  | idx (a : ℕ)
  | idxs (Nm : ℕ) (a : ℕ → ℕ)

/-- Line 27 of `ssl.py`: `sv = sv / np.linalg.norm(sv, axis=1, keepdims=True)`
— the steering-vector bank normalized to unit norm across the channel axis,
per (direction, frequency-bin). -/
def svUnitNorm (M' : ℕ) (sv : ℕ → ℕ → ℕ → ℂ) : ℕ → ℕ → ℕ → ℂ :=
  fun a m f => sv a m f /
    ((Real.sqrt (∑ m' ∈ Finset.range M', Complex.abs (sv a m' f) ^ 2) : ℝ) : ℂ)

/-- `ml_ssl` of `ssl.py` lines 12-43.  Real-exponent `np.power` is modelled
with `Real.rpow`.  numpy's einsum broadcasts length-1 labelled axes (only
the output operand is exempt from broadcasting), so the shape gates are
`bcompat`, the effective extents `bdim` and the operand indices `bidx`. -/
def ml_ssl (M T F A M' F' : ℕ) (stft sv : ℕ → ℕ → ℕ → ℂ)
    (compression eps : ℝ) (norm : Bool) (mask : MLMask) :
    Except String MLOut :=
  let svn := svUnitNorm M' sv
  let st : ℕ → ℕ → ℕ → ℂ :=
    if norm then
      fun m t f => stft m t f / ((max (Complex.abs (stft m t f)) eps : ℝ) : ℂ)
    else stft
  let ssh_cor : ℕ → ℕ → ℝ := fun t f =>
    Complex.abs (∑ m ∈ Finset.range M, st m t f * star (st m t f))
  -- line 31: einsum "amf,mtf->atf" — the contracted label m and the output
  -- label f broadcast their operand extents
  if bcompat M' M ∧ bcompat F' F then
    let Mb := bdim M' M
    let Fb := bdim F' F
    let ssv_cor : ℕ → ℕ → ℕ → ℝ := fun a t f =>
      Complex.abs (∑ m ∈ Finset.range Mb,
        svn a (bidx M' m) (bidx F' f) * star (st (bidx M m) t (bidx F f))) ^ 2
    -- line 33: ssh_cor[None, ...] - ssv_cor / (1 + eps) broadcasts (1,T,F)
    -- with (A,T,Fb); the f-axes are always compatible since Fb stems from F
    let Fd := bdim F Fb
    let delta : ℕ → ℕ → ℕ → ℝ := fun a t f =>
      ssh_cor t (bidx F f) - ssv_cor a t (bidx Fb f) / (1 + eps)
    let tf_loglike : ℕ → ℕ → ℕ → ℝ :=
      if compression ≤ 0 then fun a t f => -Real.log (max (delta a t f) eps)
      else fun a t f => -(delta a t f ^ compression)
    match mask with
    | MLMask.none =>
        -- mask = np.ones([T, F]); the multiply at line 40 broadcasts
        -- (1,T,F) with (A,T,Fd), always compatible since Fd stems from F
        if A = 0 then Except.error "attempt to get argmax of an empty sequence"
        else Except.ok (MLOut.idx (argmaxR A (fun a =>
          ∑ t ∈ Finset.range T, ∑ f ∈ Finset.range (bdim F Fd),
            (1 : ℝ) * tf_loglike a t (bidx Fd f))))
    | MLMask.m2 Tm Fm μ =>
        if bcompat Tm T ∧ bcompat Fm Fd then
          if A = 0 then Except.error "attempt to get argmax of an empty sequence"
          else Except.ok (MLOut.idx (argmaxR A (fun a =>
            ∑ t ∈ Finset.range (bdim Tm T), ∑ f ∈ Finset.range (bdim Fm Fd),
              μ (bidx Tm t) (bidx Fm f) * tf_loglike a (bidx T t) (bidx Fd f))))
        else Except.error "operands could not be broadcast together"
    | MLMask.m3 Nm Tm Fm ν =>
        -- line 42: einsum "ntf,atf->na" — the contracted labels t and f
        -- broadcast their operand extents as well
        if bcompat Tm T ∧ bcompat Fm Fd then
          if A = 0 then Except.error "attempt to get argmax of an empty sequence"
          else Except.ok (MLOut.idxs Nm (fun n => argmaxR A (fun a =>
            ∑ t ∈ Finset.range (bdim Tm T), ∑ f ∈ Finset.range (bdim Fm Fd),
              ν n (bidx Tm t) (bidx Fm f) * tf_loglike a (bidx T t) (bidx Fd f))))
        else Except.error "einsum: operands could not be broadcast together"
  else Except.error "einsum: operands could not be broadcast together"

/-- `srp_ssl` of `ssl.py` lines 46-77 (`np.angle` is `Complex.arg`). -/
def srp_ssl (M T F A M' F' : ℕ) (stft sv : ℕ → ℕ → ℕ → ℂ)
    (srp_pair : Option (List ℤ × List ℤ))
    (mask : Option (ℕ × ℕ × (ℕ → ℕ → ℝ))) : Except String ℕ :=
  match srp_pair with
  | Option.none => Except.error "srp_pair cannot be None, (list, list)"
  | Option.some pr =>
    let index_l := pr.1
    let index_r := pr.2
    let Tm := maskT T mask
    let Fm := maskF F mask
    let μ := maskW mask
    let obs_pha : ℕ → ℕ → ℕ → ℝ := fun m t f => Complex.arg (stft m t f)
    let ora_pha : ℕ → ℕ → ℕ → ℝ := fun a m f => Complex.arg (sv a m f)
    let Pl := index_l.length
    let Pr := index_r.length
    if (∀ i ∈ index_l, idxOK M i) ∧ (∀ i ∈ index_r, idxOK M i) ∧
        bcompat Pl Pr then
      if (∀ i ∈ index_l, idxOK M' i) ∧ (∀ i ∈ index_r, idxOK M' i) then
        let P := bdim Pl Pr
        let obs_ipd : ℕ → ℕ → ℕ → ℝ := fun p t f =>
          obs_pha (idxVal M (index_l.getD (bidx Pl p) 0)) t f -
            obs_pha (idxVal M (index_r.getD (bidx Pr p) 0)) t f
        let ora_ipd : ℕ → ℕ → ℕ → ℝ := fun a p f =>
          ora_pha a (idxVal M' (index_l.getD (bidx Pl p) 0)) f -
            ora_pha a (idxVal M' (index_r.getD (bidx Pr p) 0)) f
        if bcompat F F' then
          let Fb := bdim F F'
          let af : ℕ → ℕ → ℕ → ℝ := fun a t fb =>
            (∑ p ∈ Finset.range P,
              Real.cos (obs_ipd p t (bidx F fb) - ora_ipd a p (bidx F' fb))) /
              (P : ℝ)
          if bcompat T Tm ∧ bcompat Fb Fm then
            if A = 0 then
              Except.error "attempt to get argmax of an empty sequence"
            else Except.ok (argmaxR A (fun a =>
              ∑ t ∈ Finset.range (bdim T Tm),
                ∑ fb ∈ Finset.range (bdim Fb Fm),
                  af a (bidx T t) (bidx Fb fb) * μ (bidx Tm t) (bidx Fm fb)))
          else Except.error "operands could not be broadcast together"
        else Except.error "operands could not be broadcast together"
      else Except.error "IndexError: index out of bounds"
    else Except.error "IndexError or broadcast failure"

/-- Line 96 of `ssl.py`: the per-bin channel covariance of the masked
spectra, `obs_covar[f,a,b] = (Σ_t obs[f,a,t] · conj(obs[f,b,t])) / T`. -/
def musicCovar (T F Tm Fm : ℕ) (stft : ℕ → ℕ → ℕ → ℂ) (μ : ℕ → ℕ → ℝ) :
    ℕ → ℕ → ℕ → ℂ :=
  fun f a b => (∑ t ∈ Finset.range (bdim T Tm),
    (stft a (bidx T t) (bidx F f) * ((μ (bidx Tm t) (bidx Fm f) : ℝ) : ℂ)) *
      star (stft b (bidx T t) (bidx F f) *
        ((μ (bidx Tm t) (bidx Fm f) : ℝ) : ℂ))) / (T : ℂ)

/-- Lines 100-102 of `ssl.py`: `noise_sub = v[..., :-1]` followed by
`noise_covar = noise_sub @ noise_subᴴ`, with `Msub = M - 1` retained
eigenvector columns. -/
def musicNoiseCovar (Msub : ℕ) (v : ℕ → ℕ → ℕ → ℂ) : ℕ → ℕ → ℕ → ℂ :=
  fun f a b => ∑ k ∈ Finset.range Msub, v f a k * star (v f b k)

/-- `music_ssl` of `ssl.py` lines 80-110.  `np.linalg.eigh` is an external
dense linear-algebra routine (numpy, not part of this repository); its
eigenvector output on `musicCovar` is taken as the oracle argument `v`,
constrained in the theorems by the eigh contract (orthonormal columns,
eigenvalues in ascending order). -/
def music_ssl (M T F A M' F' : ℕ) (stft sv : ℕ → ℕ → ℕ → ℂ)
    (mask : Option (ℕ × ℕ × (ℕ → ℕ → ℝ))) (v : ℕ → ℕ → ℕ → ℂ) :
    Except String ℕ :=
  let Tm := maskT T mask
  let Fm := maskF F mask
  if bcompat T Tm ∧ bcompat F Fm then
    let F2 := bdim F Fm
    -- line 96: the covariance handed to `np.linalg.eigh`, whose eigenvector
    -- output is the oracle `v`
    let _obs_covar := musicCovar T F Tm Fm stft (maskW mask)
    let noise_covar := musicNoiseCovar (M - 1) v
    -- lines 104-107: einsum "...a,...ab,...b->..." — the contracted labels
    -- a and b broadcast their operand extents (M' with M), and the ellipsis
    -- broadcasts (F', A) with (F2, 1)
    if bcompat M' M ∧ bcompat F' F2 then
      let Mb := bdim M' M
      let Fb := bdim F' F2
      let denorm : ℕ → ℕ → ℂ := fun f a =>
        ∑ i ∈ Finset.range Mb, ∑ j ∈ Finset.range Mb,
          star (sv a (bidx M' i) (bidx F' f)) *
            noise_covar (bidx F2 f) (bidx M i) (bidx M j) *
              sv a (bidx M' j) (bidx F' f)
      let score : ℕ → ℝ := fun a => ∑ f ∈ Finset.range Fb,
        Complex.abs (denorm f a)
      if A = 0 then Except.error "attempt to get argmin of an empty sequence"
      else Except.ok (argminR A score)
    else Except.error "einsum: operands could not be broadcast together"
  else Except.error "operands could not be broadcast together"

/-! Spec-side ML formulas (§4.4 of the spec), to be compared with the
`ml_ssl` pipeline. -/

namespace MLSpec

/-- Spec: the observed self-coherence `|Σ_m X_m(t,f) · conj(X_m(t,f))|`. -/
def selfCoherence (M : ℕ) (stft : ℕ → ℕ → ℕ → ℂ) (t f : ℕ) : ℝ :=
  Complex.abs (∑ m ∈ Finset.range M, stft m t f * star (stft m t f))

/-- Spec: the steered correlation — the inner product between the
channel-normalized steering vector and the observed spectrum,
magnitude-squared. -/
def steeredCorr (M : ℕ) (sv stft : ℕ → ℕ → ℕ → ℂ) (a t f : ℕ) : ℝ :=
  Complex.abs (∑ m ∈ Finset.range M,
    svUnitNorm M sv a m f * star (stft m t f)) ^ 2

/-- Spec: the likelihood deficit
`delta = |observed self-coherence| − |steered correlation|² / (1+ε)`. -/
def mlDeficit (M : ℕ) (sv stft : ℕ → ℕ → ℕ → ℂ) (eps : ℝ) (a t f : ℕ) : ℝ :=
  selfCoherence M stft t f - steeredCorr M sv stft a t f / (1 + eps)

/-- Spec: the per-cell log-likelihood, `−log(max(delta, ε))` by default, or
`−delta^p` for a compression exponent `p > 0`. -/
def cellLogLike (M : ℕ) (sv stft : ℕ → ℕ → ℕ → ℂ) (compression eps : ℝ)
    (a t f : ℕ) : ℝ :=
  if compression ≤ 0 then
    -Real.log (max (mlDeficit M sv stft eps a t f) eps)
  else -(mlDeficit M sv stft eps a t f ^ compression)

/-- Spec: the mask-weighted total log-likelihood of a direction, summed over
time and frequency. -/
def totalLogLike (M T F : ℕ) (stft sv : ℕ → ℕ → ℕ → ℂ)
    (compression eps : ℝ) (μ : ℕ → ℕ → ℝ) : ℕ → ℝ :=
  fun a => ∑ t ∈ Finset.range T, ∑ f ∈ Finset.range F,
    μ t f * cellLogLike M sv stft compression eps a t f

end MLSpec

end Ssl

namespace Ipd

/-! `compute_spatial_feats` of `compute_ipd_and_linear_srp.py`, branch
`args.type == "ipd"` (lines 32-47).  The `srp`/`msc` branches delegate to
`libs/spatial.py`, which is not under `src/`.  The input spectrogram is a
dynamically-shaped array (`shape`, `data`), since the branch dispatches on
`S.ndim`. -/

/-- Modelled from the spec: the IPD feature of `libs/spatial.py` (not under
`src/`) — per time-frame and frequency-bin phase difference
`angle(X_L) − angle(X_R)`, optionally encoded as its cosine, with the sine
additionally appended along the frequency axis if requested.  Returns the
feature width together with the feature matrix. -/
def ipd (F : ℕ) (XL XR : ℕ → ℕ → ℂ) (useCos useSin : Bool) :
    ℕ × (ℕ → ℕ → ℝ) :=
  let phi : ℕ → ℕ → ℝ := fun t f => Complex.arg (XL t f) - Complex.arg (XR t f)
  if useCos then
    if useSin then
      (2 * F, fun t f =>
        if f < F then Real.cos (phi t f) else Real.sin (phi t (f - F)))
    else (F, fun t f => Real.cos (phi t f))
  else (F, phi)

/-- `np.hstack` on a list of 2-D blocks: concatenation along the frequency
axis, each block paired with its width. -/
def hstackF : List (ℕ × (ℕ → ℕ → ℝ)) → ℕ → ℕ → ℝ
  | [], _, _ => 0
  | (w, m) :: rest, t, f => if f < w then m t f else hstackF rest t (f - w)

/-- The `for p in args.ipd_pair.split(";")` loop of lines 36-45, fail-fast:
per pair, the length-2 check, the explicit `R > S.shape[0]` check
(`RuntimeError`), then the channel slices `S[L]`, `S[R]` (numpy basic
indexing: `IndexError` unless `-N ≤ i < N`), then the IPD feature. -/
def ipdFold (N T' Fq : ℕ) (data : List ℕ → ℂ) (useCos useSin : Bool) :
    List (List ℤ) → Except String (List (ℕ × (ℕ → ℕ → ℝ)))
  | [] => Except.ok []
  | p :: rest =>
    if p.length ≠ 2 then
      Except.error "Invalid --ipd.pair configuration detected"
    else
      let L := p.getD 0 0
      let R := p.getD 1 0
      if (N : ℤ) < R then Except.error "Could not access channel"
      else if ¬ idxOK N L then Except.error "IndexError: channel index"
      else if ¬ idxOK N R then Except.error "IndexError: channel index"
      else
        let XL : ℕ → ℕ → ℂ := fun t f => data [idxVal N L, t, f]
        let XR : ℕ → ℕ → ℂ := fun t f => data [idxVal N R, t, f]
        (ipdFold N T' Fq data useCos useSin rest).map
          (fun l => ipd Fq XL XR useCos useSin :: l)

/-- Lines 32-47 of `compute_ipd_and_linear_srp.py`: the `"ipd"` branch of
`compute_spatial_feats`.  Fails with `ValueError` when `S.ndim < 3`,
otherwise runs the pair loop and `np.hstack`s the features along the
frequency axis. -/
def compute_spatial_feats_ipd (shape : List ℕ) (data : List ℕ → ℂ)
    (pairs : List (List ℤ)) (useCos useSin : Bool) :
    Except String (ℕ → ℕ → ℝ) :=
  if shape.length < 3 then Except.error "Only one-channel STFT available"
  else
    (ipdFold (shape.getD 0 0) (shape.getD 1 0) (shape.getD 2 0) data
      useCos useSin pairs).map hstackF

end Ipd

namespace Oracle

/-! `compute_mask` of `oracle_separate.py` lines 19-45. -/

/-- Modelled from the spec: entrywise magnitude of a complex spectrogram
(`cmat_abs` of `libs/utils.py`, which is outside `src/`; the spec's mask
formulas are stated on spectral magnitudes). -/
def cmat_abs (z : ℂ) : ℝ := Complex.abs z

/-- The four oracle mask types of `oracle_separate.py`. -/
inductive MaskType where
  | iam | irm | ibm | psm
  deriving DecidableEq

/-- Return value of `compute_mask`: boolean masks for IBM, real-valued masks
otherwise. -/
inductive MaskOut where
  | bools (l : List (ℕ → ℕ → Bool))
  | reals (l : List (ℕ → ℕ → ℝ))

/-- Lines 29-30: `np.argmax(np.stack([cmat_abs(mat) for mat in targets]), 0)`
— per time-frequency cell, the first target index of maximal magnitude. -/
def ibmMaxIndex (targets : List (ℕ → ℕ → ℂ)) (t f : ℕ) : ℕ :=
  argmaxR targets.length (fun s => cmat_abs ((targets.getD s (fun _ _ => 0)) t f))

/-- `compute_mask` of `oracle_separate.py` (the `EPSILON` of `libs/utils.py`
is the parameter `eps`). -/
def compute_mask (mixture : ℕ → ℕ → ℂ) (targets : List (ℕ → ℕ → ℂ))
    (mask_type : MaskType) (eps : ℝ) : MaskOut :=
  if mask_type = MaskType.ibm then
    MaskOut.bools ((List.range targets.length).map fun s =>
      fun t f => ibmMaxIndex targets t f == s)
  else
    let denominator : ℕ → ℕ → ℝ :=
      if mask_type = MaskType.irm then
        fun t f => (∑ k ∈ Finset.range targets.length,
          cmat_abs ((targets.getD k (fun _ _ => 0)) t f)) + eps
      else fun t f => cmat_abs (mixture t f) + eps
    if mask_type ≠ MaskType.psm then
      MaskOut.reals (targets.map fun tg =>
        fun t f => cmat_abs (tg t f) / denominator t f)
    else
      MaskOut.reals (targets.map fun tg =>
        fun t f => cmat_abs (tg t f) *
          Real.cos (Complex.arg (mixture t f) - Complex.arg (tg t f)) /
            denominator t f)

end Oracle

/-! ## Theorems -/

theorem argmaxR_lt {A : ℕ} (hA : 0 < A) (f : ℕ → ℝ) : argmaxR A f < A := by
  have key : ∀ (l : List ℕ) (b : ℕ), b < A → (∀ i ∈ l, i < A) →
      (l.foldl (fun best i => if f best < f i then i else best) b) < A := by
    intro l
    induction l with
    | nil => intro b hb _; simpa using hb
    | cons x xs ih =>
      intro b hb hl
      simp only [List.foldl_cons]
      by_cases h : f b < f x
      · rw [if_pos h]
        exact ih x (hl x (by simp)) (fun i hi => hl i (by simp [hi]))
      · rw [if_neg h]
        exact ih b hb (fun i hi => hl i (by simp [hi]))
  exact key _ 0 hA (fun i hi => List.mem_range.mp hi)

theorem bcompat_self (a : ℕ) : bcompat a a := Or.inl rfl

theorem bdim_self (a : ℕ) : bdim a a = a := by
  unfold bdim; exact ite_self a

theorem bidx_lt {L i : ℕ} (h : i < L) : bidx L i = i := by
  unfold bidx
  split_ifs with h1
  · omega
  · rfl

namespace Auxiva

/-- **C2.** Running `auxiva` with 0 effective iterations returns the mixture
unchanged: the demixing matrices stay the identity, no update is performed,
and the output equals the input in the same channel-major layout. -/

theorem auxiva_zero_epochs_id {N T F : ℕ} (X : Fin N → Fin T → Fin F → ℂ)
    (eps : ℝ) : auxiva X 0 eps = some X := by
  unfold auxiva runEpochs
  simp only [Option.map_some']
  congr 1
  funext n t f
  unfold demixY Winit Xt
  simp only [Matrix.one_apply, apply_ite (star : ℂ → ℂ), star_one, star_zero,
    mul_ite, mul_one, mul_zero]
  simp

theorem colUpdate_eq_none_iff {N : ℕ} (V Wf : Matrix (Fin N) (Fin N) ℂ)
    (n : Fin N) : colUpdate V Wf n = none ↔ (Wfᴴ * V).det = 0 := by
  unfold colUpdate
  by_cases h : (Wfᴴ * V).det = 0
  · rw [if_pos h]
    exact iff_of_true rfl h
  · rw [if_neg h]
    exact iff_of_false (by simp) h

theorem colUpdate_of_det_ne {N : ℕ} (V Wf : Matrix (Fin N) (Fin N) ℂ)
    (n : Fin N) (h : (Wfᴴ * V).det ≠ 0) :
    colUpdate V Wf n = some (Wf.updateColumn n (fun r =>
      (Wfᴴ * V)⁻¹.mulVec (Pi.single n 1) r /
        ∑ i, star ((Wfᴴ * V)⁻¹.mulVec (Pi.single n 1) i) *
          V.mulVec ((Wfᴴ * V)⁻¹.mulVec (Pi.single n 1)) i)) := by
  unfold colUpdate
  rw [if_neg h]

theorem binCols_none_mono {N : ℕ} (V : Fin N → Matrix (Fin N) (Fin N) ℂ)
    (Wf : Matrix (Fin N) (Fin N) ℂ) {n m : ℕ} (hnm : n ≤ m)
    (h : binCols V Wf n = none) : binCols V Wf m = none := by
  induction m, hnm using Nat.le_induction with
  | base => exact h
  | succ m _ ih => simp [binCols, ih]

theorem binsFold_none_mono {N T F : ℕ} (Xf : Fin F → Fin T → Fin N → ℂ)
    (g : Fin N → Fin T → ℝ) (W : Fin F → Matrix (Fin N) (Fin N) ℂ)
    {f e : ℕ} (hfe : f ≤ e) (h : binsFold Xf g W f = none) :
    binsFold Xf g W e = none := by
  induction e, hfe using Nat.le_induction with
  | base => exact h
  | succ e _ ih => simp [binsFold, ih]

theorem runEpochs_none_mono {N T F : ℕ} (eps : ℝ)
    (Xf : Fin F → Fin T → Fin N → ℂ) {k e : ℕ} (hke : k ≤ e)
    (h : runEpochs eps Xf k = none) : runEpochs eps Xf e = none := by
  induction e, hke using Nat.le_induction with
  | base => exact h
  | succ e _ ih => simp [runEpochs, ih]

/-- **C3.** If, at any point of the run — after `k` successful epochs, `f.val`
fully updated bins of the current epoch and `n` updated columns of bin `f`
— the matrix `W_fᴴ V` handed to the per-bin linear solve is singular, then
the solve yields no update (no default or identity column is substituted)
and the whole `auxiva` call fails with the propagated error (`none`). -/

theorem auxiva_singular_solve_fails {N T F : ℕ}
    (X : Fin N → Fin T → Fin F → ℂ) (eps : ℝ) (epochs k : ℕ) (f : Fin F)
    (n : ℕ) (hn : n < N) (W0 Wfam : Fin F → Matrix (Fin N) (Fin N) ℂ)
    (Wc : Matrix (Fin N) (Fin N) ℂ) (hk : k < epochs)
    (hrun : runEpochs eps (Xt X) k = some W0)
    (hbins : binsFold (Xt X) (Gr eps (demixY (Xt X) W0)) W0 f.val = some Wfam)
    (hcols : binCols (fun j => Vmat (Xt X) (Gr eps (demixY (Xt X) W0) j) f)
      (Wfam f) n = some Wc)
    (hdet : (Wcᴴ * Vmat (Xt X) (Gr eps (demixY (Xt X) W0) ⟨n, hn⟩) f).det = 0) :
    auxiva X epochs eps = none ∧
      colUpdate (Vmat (Xt X) (Gr eps (demixY (Xt X) W0) ⟨n, hn⟩) f) Wc
        ⟨n, hn⟩ = none := by
  have hcu : colUpdate (Vmat (Xt X) (Gr eps (demixY (Xt X) W0) ⟨n, hn⟩) f) Wc
      ⟨n, hn⟩ = none := (colUpdate_eq_none_iff _ _ _).mpr hdet
  refine ⟨?_, hcu⟩
  have hsucc : binCols
      (fun j => Vmat (Xt X) (Gr eps (demixY (Xt X) W0) j) f) (Wfam f)
      (n + 1) = none := by
    simp [binCols, hcols, hn, hcu]
  have hN : binCols
      (fun j => Vmat (Xt X) (Gr eps (demixY (Xt X) W0) j) f) (Wfam f)
      N = none := binCols_none_mono _ _ hn hsucc
  have hbf : binsFold (Xt X) (Gr eps (demixY (Xt X) W0)) W0 (f.val + 1)
      = none := by
    simp [binsFold, hbins, f.isLt, Fin.eta, hN]
  have hbF : binsFold (Xt X) (Gr eps (demixY (Xt X) W0)) W0 F = none :=
    binsFold_none_mono _ _ _ f.isLt hbf
  have hstep : epochStep eps (Xt X) W0 = none := hbF
  have hk1 : runEpochs eps (Xt X) (k + 1) = none := by
    simp [runEpochs, hrun, hstep]
  have hend : runEpochs eps (Xt X) epochs = none :=
    runEpochs_none_mono _ _ hk hk1
  simp [auxiva, hend]

theorem auxiva_singular_solve_fails_witness :
    auxiva X2 1 1 = none ∧
      colUpdate (Vmat (Xt X2) (Gr 1 (demixY (Xt X2) Winit) ⟨0, by norm_num⟩)
          (0 : Fin 1))
        (Winit (0 : Fin 1) : Matrix (Fin 2) (Fin 2) ℂ)
        ⟨0, by norm_num⟩ = none := by
  have hdet : ((Winit (0 : Fin 1) : Matrix (Fin 2) (Fin 2) ℂ)ᴴ *
      Vmat (Xt X2) (Gr 1 (demixY (Xt X2) Winit) ⟨0, by norm_num⟩)
        (0 : Fin 1)).det = 0 := by
    simp only [Winit, Matrix.conjTranspose_one, one_mul]
    rw [Matrix.det_fin_two]
    simp [Vmat, Xt, X2, Fin.sum_univ_one]
  exact auxiva_singular_solve_fails X2 1 1 0 (0 : Fin 1) 0 (by norm_num)
    Winit Winit (Winit (0 : Fin 1)) (by norm_num) rfl rfl rfl hdet

/-- **C1.** At the first column update on the mixture `X1`, the rescaled
column `w' = w / (wᴴ V w)` written by line 52 of `apply_auxiva.py` satisfies
`w'ᴴ V w' = 4 / (2 + ε) ≈ 2`, not `1`: the code divides by `wᴴ V w` instead
of its square root (the update rule of the cited reference), so the
normalization `wᴴ V w = 1` claimed by the spec does not hold. -/

theorem auxiva_rescaled_column_quadform_ne_one :
    (colUpdate V1 (Winit (0 : Fin 1)) 0).map
        (fun W' => ∑ i, star (W' i 0) * V1.mulVec (fun r => W' r 0) i)
      = some (((4 / (2 + eps32) : ℝ) : ℂ)) ∧
      (((4 / (2 + eps32) : ℝ) : ℂ)) ≠ 1 := by
  have hY : demixY (Xt X1) (Winit (F := 1)) = fun _ _ _ => 2 := by
    funext f t x
    unfold demixY Winit Xt X1
    rw [Subsingleton.elim x 0]
    simp [Fin.sum_univ_one, Matrix.one_apply_eq]
  have hR : Renv (demixY (Xt X1) (Winit (F := 1))) 0 0 = 2 := by
    unfold Renv
    rw [hY]
    simp only [Fin.sum_univ_one]
    rw [show (Complex.abs 2) ^ 2 = (4 : ℝ) by
      rw [Complex.abs_two]; norm_num]
    rw [show (4 : ℝ) = 2 ^ 2 by norm_num, Real.sqrt_sq (by norm_num)]
  have hg : Gr eps32 (demixY (Xt X1) (Winit (F := 1))) 0 0
      = 1 / (2 + eps32) := by
    unfold Gr
    rw [hR]
  have hV : V1 0 0 = ((4 / (2 + eps32) : ℝ) : ℂ) := by
    unfold V1 Vmat
    simp only [Fin.sum_univ_one, hg, Xt, X1]
    push_cast
    rw [show (star (2 : ℂ)) = 2 by
      rw [show (2 : ℂ) = ((2 : ℝ) : ℂ) by norm_num, Complex.star_def,
        Complex.conj_ofReal]]
    ring
  have heps : (0 : ℝ) < 4 / (2 + eps32) := by
    unfold eps32; positivity
  have hc0 : ((4 / (2 + eps32) : ℝ) : ℂ) ≠ 0 := by
    rw [Complex.ofReal_ne_zero]
    exact ne_of_gt heps
  have hA : (Winit (0 : Fin 1) : Matrix (Fin 1) (Fin 1) ℂ)ᴴ * V1 = V1 := by
    simp [Winit]
  have hdet : ((Winit (0 : Fin 1) : Matrix (Fin 1) (Fin 1) ℂ)ᴴ * V1).det
      = ((4 / (2 + eps32) : ℝ) : ℂ) := by
    rw [hA, Matrix.det_fin_one, hV]
  have hinv : V1⁻¹ 0 0 = (((4 / (2 + eps32) : ℝ) : ℂ))⁻¹ := by
    rw [Matrix.inv_def, Matrix.adjugate_fin_one, Matrix.det_fin_one, hV]
    simp [Ring.inverse_eq_inv']
  have hw : V1⁻¹.mulVec (Pi.single (0 : Fin 1) (1 : ℂ))
      = fun _ => (((4 / (2 + eps32) : ℝ) : ℂ))⁻¹ := by
    funext i
    simp only [Matrix.mulVec, Matrix.dotProduct, Fin.sum_univ_one]
    rw [Subsingleton.elim i 0, hinv]
    simp
  have hVw : V1.mulVec (fun _ => (((4 / (2 + eps32) : ℝ) : ℂ))⁻¹)
      = fun _ => 1 := by
    funext i
    simp only [Matrix.mulVec, Matrix.dotProduct, Fin.sum_univ_one]
    rw [Subsingleton.elim i 0, hV]
    exact mul_inv_cancel₀ hc0
  have hstar : star ((((4 / (2 + eps32) : ℝ) : ℂ))⁻¹)
      = (((4 / (2 + eps32) : ℝ) : ℂ))⁻¹ := by
    rw [← Complex.ofReal_inv, Complex.star_def, Complex.conj_ofReal]
  have hcu : colUpdate V1 (Winit (0 : Fin 1)) 0
      = some ((Winit (0 : Fin 1) : Matrix (Fin 1) (Fin 1) ℂ).updateColumn 0
          (fun _ => (1 : ℂ))) := by
    rw [colUpdate_of_det_ne _ _ _ (by rw [hdet]; exact hc0)]
    congr 1
    rw [hA, hw, hVw]
    funext r c
    rw [Subsingleton.elim c 0]
    rw [Matrix.updateColumn_self, Matrix.updateColumn_self]
    simp only [Fin.sum_univ_one, mul_one, hstar]
    exact div_self (inv_ne_zero hc0)
  constructor
  · rw [hcu]
    simp only [Option.map_some']
    congr 1
    simp [Matrix.updateColumn_apply, Matrix.mulVec, Matrix.dotProduct,
      Fin.sum_univ_one, hV]
  · rw [Ne, Complex.ofReal_eq_one]
    unfold eps32
    norm_num

end Auxiva

theorem argmaxR_one (f : ℕ → ℝ) : argmaxR 1 f = 0 := by
  simp [argmaxR, List.range_succ]

theorem argminR_one (f : ℕ → ℝ) : argminR 1 f = 0 := by
  simp [argminR, List.range_succ]

namespace Ssl

/-- **C7.** `srp_ssl` called with `srp_pair = None` raises the configuration
`ValueError` as its first action, for every spectrogram, steering bank and
mask: no phase, cosine-similarity or score computation is reached, and the
error does not depend on any array contents. -/
theorem srp_ssl_none_pair (M T F A M' F' : ℕ) (stft sv : ℕ → ℕ → ℕ → ℂ)
    (mask : Option (ℕ × ℕ × (ℕ → ℕ → ℝ))) :
    srp_ssl M T F A M' F' stft sv Option.none mask
      = Except.error "srp_pair cannot be None, (list, list)" := rfl

/-- **C4.** With matching shapes, the default `norm=False` and a `T x F`
mask, `ml_ssl` returns the first direction index maximizing the
mask-weighted sum over time and frequency of the spec's per-cell
log-likelihoods `−log(max(delta, ε))` (compression ≤ 0) or `−delta^p`
(compression > 0), where
`delta = |self-coherence| − |steered correlation|²/(1+ε)` is computed from
the channel-normalized steering vectors. -/
theorem ml_ssl_matches_spec (M T F A : ℕ) (stft sv : ℕ → ℕ → ℕ → ℂ)
    (compression eps : ℝ) (μ : ℕ → ℕ → ℝ) (hA : 0 < A) :
    ml_ssl M T F A M F stft sv compression eps false (MLMask.m2 T F μ)
      = Except.ok (MLOut.idx (argmaxR A
          (MLSpec.totalLogLike M T F stft sv compression eps μ))) := by
  simp only [ml_ssl, Bool.false_eq_true, if_false, bdim_self]
  rw [if_pos ⟨bcompat_self M, bcompat_self F⟩]
  rw [if_pos ⟨bcompat_self T, bcompat_self F⟩]
  rw [if_neg hA.ne']
  refine congrArg (fun h => Except.ok (MLOut.idx (argmaxR A h))) ?_
  funext a
  unfold MLSpec.totalLogLike MLSpec.cellLogLike MLSpec.mlDeficit
    MLSpec.steeredCorr MLSpec.selfCoherence
  refine Finset.sum_congr rfl (fun t ht => Finset.sum_congr rfl (fun f hf => ?_))
  simp only [ite_apply, bidx_lt (Finset.mem_range.mp ht),
    bidx_lt (Finset.mem_range.mp hf)]
  have hsum : (∑ m ∈ Finset.range M,
      svUnitNorm M sv a (bidx M m) f * star (stft (bidx M m) t f))
      = ∑ m ∈ Finset.range M, svUnitNorm M sv a m f * star (stft m t f) :=
    Finset.sum_congr rfl fun m hm => by rw [bidx_lt (Finset.mem_range.mp hm)]
  rw [hsum]

theorem ml_ssl_matches_spec_witness :
    ml_ssl 1 1 1 1 1 1 (fun _ _ _ => 1) (fun _ _ _ => 1) 0 1 false
        (MLMask.m2 1 1 (fun _ _ => 1))
      = Except.ok (MLOut.idx (argmaxR 1
          (MLSpec.totalLogLike 1 1 1 (fun _ _ _ => 1) (fun _ _ _ => 1) 0 1
            (fun _ _ => 1)))) :=
  ml_ssl_matches_spec 1 1 1 1 (fun _ _ _ => 1) (fun _ _ _ => 1) 0 1
    (fun _ _ => 1) (by norm_num)

theorem svUnitNorm_smul (M₀ : ℕ) (c : ℕ → ℕ → ℂ) (sv : ℕ → ℕ → ℕ → ℂ)
    (a m f : ℕ) :
    svUnitNorm M₀ (fun a' m' f' => c a' f' * sv a' m' f') a m f
      = (c a f / ((Complex.abs (c a f) : ℝ) : ℂ)) * svUnitNorm M₀ sv a m f := by
  unfold svUnitNorm
  have h1 : ∑ m' ∈ Finset.range M₀, Complex.abs (c a f * sv a m' f) ^ 2
      = Complex.abs (c a f) ^ 2 *
        ∑ m' ∈ Finset.range M₀, Complex.abs (sv a m' f) ^ 2 := by
    rw [Finset.mul_sum]
    refine Finset.sum_congr rfl (fun m' _ => ?_)
    rw [map_mul, mul_pow]
  rw [h1, Real.sqrt_mul (sq_nonneg _), Real.sqrt_sq (Complex.abs.nonneg _),
    Complex.ofReal_mul, mul_div_mul_comm]

theorem abs_sum_svUnitNorm_smul (M₀ Mb : ℕ) (c : ℕ → ℕ → ℂ)
    (sv : ℕ → ℕ → ℕ → ℂ) (g : ℕ → ℕ) (h : ℕ → ℂ)
    (hc : ∀ a f, c a f ≠ 0) (a f₀ : ℕ) :
    Complex.abs (∑ m ∈ Finset.range Mb,
        svUnitNorm M₀ (fun a' m' f' => c a' f' * sv a' m' f') a (g m) f₀ *
          h m)
      = Complex.abs (∑ m ∈ Finset.range Mb,
          svUnitNorm M₀ sv a (g m) f₀ * h m) := by
  have h1 : ∀ m : ℕ,
      svUnitNorm M₀ (fun a' m' f' => c a' f' * sv a' m' f') a (g m) f₀ * h m
        = (c a f₀ / ((Complex.abs (c a f₀) : ℝ) : ℂ)) *
            (svUnitNorm M₀ sv a (g m) f₀ * h m) := fun m => by
    rw [svUnitNorm_smul M₀ c sv, mul_assoc]
  rw [Finset.sum_congr rfl (fun m _ => h1 m), ← Finset.mul_sum, map_mul]
  have h2 : Complex.abs (c a f₀ / ((Complex.abs (c a f₀) : ℝ) : ℂ)) = 1 := by
    rw [map_div₀, Complex.abs_ofReal,
      abs_of_nonneg (Complex.abs.nonneg _), div_self]
    exact Complex.abs.ne_zero (hc a f₀)
  rw [h2, one_mul]

/-- **C5.** `ml_ssl` normalizes the steering bank to unit channel norm
before scoring, which makes it scale-invariant: multiplying each
(direction, bin) steering vector of an already unit-norm bank by a nonzero
scalar leaves every spec log-likelihood score and the returned result of
`ml_ssl` unchanged. -/
theorem ml_ssl_scale_invariance (M T F A M' F' : ℕ)
    (stft sv : ℕ → ℕ → ℕ → ℂ) (compression eps : ℝ) (norm : Bool)
    (mask : MLMask) (c : ℕ → ℕ → ℂ) (hc : ∀ a f, c a f ≠ 0)
    (hunit : ∀ a f, ∑ m ∈ Finset.range M', Complex.abs (sv a m f) ^ 2 = 1) :
    (∀ μ a, MLSpec.totalLogLike M T F stft
        (fun a' m' f' => c a' f' * sv a' m' f') compression eps μ a
      = MLSpec.totalLogLike M T F stft sv compression eps μ a)
    ∧ ml_ssl M T F A M' F' stft (fun a' m' f' => c a' f' * sv a' m' f')
        compression eps norm mask
      = ml_ssl M T F A M' F' stft sv compression eps norm mask := by
  constructor
  · intro μ a
    unfold MLSpec.totalLogLike MLSpec.cellLogLike MLSpec.mlDeficit
      MLSpec.steeredCorr
    have key1 : ∀ a t f, Complex.abs (∑ m ∈ Finset.range M,
        svUnitNorm M (fun a' m' f' => c a' f' * sv a' m' f') a m f *
          star (stft m t f))
        = Complex.abs (∑ m ∈ Finset.range M,
            svUnitNorm M sv a m f * star (stft m t f)) := fun a t f =>
      abs_sum_svUnitNorm_smul M M c sv (fun m => m)
        (fun m => star (stft m t f)) hc a f
    simp only [key1]
  · have key2 : ∀ a t f, Complex.abs (∑ m ∈ Finset.range (bdim M' M),
        svUnitNorm M' (fun a' m' f' => c a' f' * sv a' m' f') a (bidx M' m)
            (bidx F' f) *
          star ((if norm then
              (fun m t f => stft m t f /
                ((max (Complex.abs (stft m t f)) eps : ℝ) : ℂ))
            else stft) (bidx M m) t (bidx F f)))
        = Complex.abs (∑ m ∈ Finset.range (bdim M' M),
            svUnitNorm M' sv a (bidx M' m) (bidx F' f) *
              star ((if norm then
                  (fun m t f => stft m t f /
                    ((max (Complex.abs (stft m t f)) eps : ℝ) : ℂ))
                else stft) (bidx M m) t (bidx F f))) := fun a t f =>
      abs_sum_svUnitNorm_smul M' (bdim M' M) c sv (bidx M')
        (fun m => star ((if norm then
            (fun m t f => stft m t f /
              ((max (Complex.abs (stft m t f)) eps : ℝ) : ℂ))
          else stft) (bidx M m) t (bidx F f))) hc a (bidx F' f)
    simp only [ml_ssl]
    simp only [key2]

theorem ml_ssl_scale_invariance_witness :
    ml_ssl 1 1 1 1 1 1 (fun _ _ _ => 1)
        (fun a' m' f' => (fun _ _ => (2 : ℂ)) a' f' *
          (fun _ _ _ => (1 : ℂ)) a' m' f') 0 1 false MLMask.none
      = ml_ssl 1 1 1 1 1 1 (fun _ _ _ => 1) (fun _ _ _ => 1) 0 1 false
          MLMask.none :=
  (ml_ssl_scale_invariance 1 1 1 1 1 1 (fun _ _ _ => 1) (fun _ _ _ => 1)
    0 1 false MLMask.none (fun _ _ => 2) (fun _ _ => by norm_num)
    (fun _ _ => by simp)).2

/-- **C6** (counterexample).  A steering bank whose frequency-bin axis has
length 1 while the spectra have 2 bins does **not** make `srp_ssl` raise: the
mismatched axis broadcasts silently and a direction index is returned. -/
theorem srp_ssl_single_bin_broadcasts :
    srp_ssl 2 1 2 1 2 1 (fun _ _ _ => 1) (fun _ _ _ => 1)
        (Option.some ([0], [1])) Option.none = Except.ok 0 := by
  simp only [srp_ssl]
  rw [if_pos (by decide)]
  rw [if_pos (by decide)]
  rw [if_pos (by decide)]
  rw [if_pos (by decide)]
  rw [if_neg (by decide)]
  rw [argmaxR_one]

/-- **C6** (amended).  None of the estimators has an explicit shape check;
errors come from numpy's einsum / broadcast machinery, which admits
length-1 axes.  A frequency-bin mismatch between the steering bank and the
spectra therefore raises an error in each estimator only when neither
frequency-bin count is 1: `ml_ssl` and `music_ssl` (with a `T x F`-shaped
or absent mask) fail whenever the counts are broadcast-incompatible, but a
bank with a single frequency bin broadcasts silently across the spectra's
bins and every estimator returns a direction index — proven below for
`ml_ssl` and `music_ssl`, and by the counterexample for `srp_ssl`. -/
theorem ssl_freq_mismatch (M T F A M' F' : ℕ) (stft sv : ℕ → ℕ → ℕ → ℂ) :
    (∀ (compression eps : ℝ) (norm : Bool) (mask : MLMask), ¬ bcompat F' F →
      ml_ssl M T F A M' F' stft sv compression eps norm mask
        = Except.error "einsum: operands could not be broadcast together")
    ∧ (∀ (compression eps : ℝ) (norm : Bool), M' = M → F' = 1 → 0 < A →
        (ml_ssl M T F A M' F' stft sv compression eps norm
          MLMask.none).isOk = true)
    ∧ (∀ (pr : List ℤ × List ℤ) (maskO : Option (ℕ × ℕ × (ℕ → ℕ → ℝ))),
        ¬ bcompat F F' →
        (srp_ssl M T F A M' F' stft sv (Option.some pr) maskO).isOk = false)
    ∧ (∀ (maskO : Option (ℕ × ℕ × (ℕ → ℕ → ℝ))) (v : ℕ → ℕ → ℕ → ℂ),
        maskT T maskO = T → maskF F maskO = F → ¬ bcompat F' F →
        (music_ssl M T F A M' F' stft sv maskO v).isOk = false)
    ∧ (∀ (v : ℕ → ℕ → ℕ → ℂ), M' = M → F' = 1 → 0 < A →
        (music_ssl M T F A M' F' stft sv Option.none v).isOk = true) := by
  refine ⟨?_, ?_, ?_, ?_, ?_⟩
  · intro compression eps norm mask hFF
    simp only [ml_ssl]
    rw [if_neg (fun h => hFF h.2)]
  · intro compression eps norm hM hF1 hA
    subst hM
    subst hF1
    simp only [ml_ssl]
    rw [if_pos ⟨bcompat_self M', Or.inr (Or.inl rfl)⟩]
    rw [if_neg hA.ne']
    rfl
  · intro pr maskO hFF
    simp only [srp_ssl]
    split_ifs <;> rfl
  · intro maskO v hT hF hFF
    simp only [music_ssl, hT, hF, bdim_self]
    rw [if_pos ⟨bcompat_self T, bcompat_self F⟩]
    rw [if_neg (fun h => hFF h.2)]
    rfl
  · intro v hM hF1 hA
    subst hM
    subst hF1
    simp only [music_ssl, maskT, maskF, bdim_self]
    rw [if_pos ⟨bcompat_self T, bcompat_self F⟩]
    rw [if_pos ⟨bcompat_self M', Or.inr (Or.inl rfl)⟩]
    rw [if_neg hA.ne']
    rfl

theorem ssl_freq_mismatch_witness :
    ml_ssl 1 1 2 1 1 4 (fun _ _ _ => 1) (fun _ _ _ => 1) 0 1 false MLMask.none
        = Except.error "einsum: operands could not be broadcast together"
    ∧ (ml_ssl 1 1 2 1 1 1 (fun _ _ _ => 1) (fun _ _ _ => 1) 0 1 false
        MLMask.none).isOk = true
    ∧ (srp_ssl 1 1 2 1 1 4 (fun _ _ _ => 1) (fun _ _ _ => 1)
        (Option.some ([0], [0])) Option.none).isOk = false
    ∧ (music_ssl 1 1 2 1 1 4 (fun _ _ _ => 1) (fun _ _ _ => 1) Option.none
        (fun _ _ _ => 1)).isOk = false
    ∧ (music_ssl 1 1 2 1 1 1 (fun _ _ _ => 1) (fun _ _ _ => 1) Option.none
        (fun _ _ _ => 1)).isOk = true :=
  ⟨(ssl_freq_mismatch 1 1 2 1 1 4 (fun _ _ _ => 1) (fun _ _ _ => 1)).1
      0 1 false MLMask.none (by decide),
   (ssl_freq_mismatch 1 1 2 1 1 1 (fun _ _ _ => 1) (fun _ _ _ => 1)).2.1
      0 1 false rfl rfl (by norm_num),
   (ssl_freq_mismatch 1 1 2 1 1 4 (fun _ _ _ => 1) (fun _ _ _ => 1)).2.2.1
      ([0], [0]) Option.none (by decide),
   (ssl_freq_mismatch 1 1 2 1 1 4 (fun _ _ _ => 1) (fun _ _ _ => 1)).2.2.2.1
      Option.none (fun _ _ _ => 1) rfl rfl (by decide),
   (ssl_freq_mismatch 1 1 2 1 1 1 (fun _ _ _ => 1) (fun _ _ _ => 1)).2.2.2.2
      (fun _ _ _ => 1) rfl rfl (by norm_num)⟩

theorem abs_noise_quadform_eq_energy (M Msub : ℕ) (vf : ℕ → ℕ → ℂ)
    (s : ℕ → ℂ)
    (horth : ∀ k, k < Msub → ∀ k', k' < Msub →
      (∑ a ∈ Finset.range M, star (vf a k) * vf a k')
        = if k = k' then 1 else 0) :
    Complex.abs (∑ i ∈ Finset.range M, ∑ j ∈ Finset.range M,
        star (s i) * (∑ k ∈ Finset.range Msub, vf i k * star (vf j k)) * s j)
      = ∑ i ∈ Finset.range M, Complex.abs (∑ j ∈ Finset.range M,
          (∑ k ∈ Finset.range Msub, vf i k * star (vf j k)) * s j) ^ 2 := by
  classical
  set c : ℕ → ℂ := fun k => ∑ a ∈ Finset.range M, star (vf a k) * s a with hc
  have hquad : (∑ i ∈ Finset.range M, ∑ j ∈ Finset.range M,
      star (s i) * (∑ k ∈ Finset.range Msub, vf i k * star (vf j k)) * s j)
      = ∑ k ∈ Finset.range Msub, c k * star (c k) := by
    calc ∑ i ∈ Finset.range M, ∑ j ∈ Finset.range M,
          star (s i) * (∑ k ∈ Finset.range Msub, vf i k * star (vf j k)) * s j
        = ∑ i ∈ Finset.range M, ∑ j ∈ Finset.range M, ∑ k ∈ Finset.range Msub,
            (star (s i) * vf i k) * (star (vf j k) * s j) := by
          refine Finset.sum_congr rfl fun i _ => Finset.sum_congr rfl fun j _ => ?_
          rw [Finset.mul_sum, Finset.sum_mul]
          exact Finset.sum_congr rfl fun k _ => by ring
      _ = ∑ i ∈ Finset.range M, ∑ k ∈ Finset.range Msub, ∑ j ∈ Finset.range M,
            (star (s i) * vf i k) * (star (vf j k) * s j) := by
          exact Finset.sum_congr rfl fun i _ => Finset.sum_comm
      _ = ∑ k ∈ Finset.range Msub, ∑ i ∈ Finset.range M, ∑ j ∈ Finset.range M,
            (star (s i) * vf i k) * (star (vf j k) * s j) := Finset.sum_comm
      _ = ∑ k ∈ Finset.range Msub,
            (∑ i ∈ Finset.range M, star (s i) * vf i k) *
              (∑ j ∈ Finset.range M, star (vf j k) * s j) := by
          exact Finset.sum_congr rfl fun k _ => (Finset.sum_mul_sum _ _ _ _).symm
      _ = ∑ k ∈ Finset.range Msub, c k * star (c k) := by
          refine Finset.sum_congr rfl fun k _ => ?_
          have hstar : (∑ i ∈ Finset.range M, star (s i) * vf i k)
              = star (c k) := by
            rw [hc]
            rw [star_sum]
            refine Finset.sum_congr rfl fun i _ => ?_
            rw [star_mul', star_star]
            ring
          rw [hstar, hc]
          ring
  have habs : Complex.abs (∑ k ∈ Finset.range Msub, c k * star (c k))
      = ∑ k ∈ Finset.range Msub, Complex.normSq (c k) := by
    have hcast : (∑ k ∈ Finset.range Msub, c k * star (c k))
        = (((∑ k ∈ Finset.range Msub, Complex.normSq (c k) : ℝ)) : ℂ) := by
      push_cast
      refine Finset.sum_congr rfl fun k _ => ?_
      rw [Complex.star_def, Complex.mul_conj]
    rw [hcast, Complex.abs_ofReal, abs_of_nonneg]
    exact Finset.sum_nonneg fun k _ => Complex.normSq_nonneg _
  have hyi : ∀ i, (∑ j ∈ Finset.range M,
      (∑ k ∈ Finset.range Msub, vf i k * star (vf j k)) * s j)
      = ∑ k ∈ Finset.range Msub, vf i k * c k := by
    intro i
    calc ∑ j ∈ Finset.range M,
          (∑ k ∈ Finset.range Msub, vf i k * star (vf j k)) * s j
        = ∑ j ∈ Finset.range M, ∑ k ∈ Finset.range Msub,
            vf i k * (star (vf j k) * s j) := by
          refine Finset.sum_congr rfl fun j _ => ?_
          rw [Finset.sum_mul]
          exact Finset.sum_congr rfl fun k _ => by ring
      _ = ∑ k ∈ Finset.range Msub, ∑ j ∈ Finset.range M,
            vf i k * (star (vf j k) * s j) := Finset.sum_comm
      _ = ∑ k ∈ Finset.range Msub, vf i k * c k := by
          refine Finset.sum_congr rfl fun k _ => ?_
          rw [← Finset.mul_sum, hc]
  have hdelta : ∀ k ∈ Finset.range Msub, ∀ k' ∈ Finset.range Msub,
      (∑ i ∈ Finset.range M, vf i k * star (vf i k'))
        = if k = k' then 1 else 0 := by
    intro k hk k' hk'
    have h1 : (∑ i ∈ Finset.range M, vf i k * star (vf i k'))
        = star (∑ i ∈ Finset.range M, star (vf i k) * vf i k') := by
      rw [star_sum]
      refine Finset.sum_congr rfl fun i _ => ?_
      rw [star_mul', star_star]
    rw [h1, horth k (Finset.mem_range.mp hk) k' (Finset.mem_range.mp hk'),
      apply_ite (star : ℂ → ℂ), star_one, star_zero]
  have hsum2 : (∑ i ∈ Finset.range M,
      Complex.normSq (∑ k ∈ Finset.range Msub, vf i k * c k))
      = ∑ k ∈ Finset.range Msub, Complex.normSq (c k) := by
    have hC : (((∑ i ∈ Finset.range M,
        Complex.normSq (∑ k ∈ Finset.range Msub, vf i k * c k) : ℝ)) : ℂ)
        = (((∑ k ∈ Finset.range Msub, Complex.normSq (c k) : ℝ)) : ℂ) := by
      push_cast
      calc ∑ i ∈ Finset.range M,
            ((Complex.normSq (∑ k ∈ Finset.range Msub, vf i k * c k) : ℝ) : ℂ)
          = ∑ i ∈ Finset.range M,
              (∑ k ∈ Finset.range Msub, vf i k * c k) *
                star (∑ k' ∈ Finset.range Msub, vf i k' * c k') := by
            refine Finset.sum_congr rfl fun i _ => ?_
            rw [Complex.star_def, Complex.mul_conj]
        _ = ∑ i ∈ Finset.range M, ∑ k ∈ Finset.range Msub,
              ∑ k' ∈ Finset.range Msub,
                (vf i k * c k) * (star (vf i k') * star (c k')) := by
            refine Finset.sum_congr rfl fun i _ => ?_
            rw [star_sum, Finset.sum_mul_sum]
            refine Finset.sum_congr rfl fun k _ => Finset.sum_congr rfl fun k' _ => ?_
            rw [star_mul']
        _ = ∑ k ∈ Finset.range Msub, ∑ k' ∈ Finset.range Msub,
              (c k * star (c k')) *
                (∑ i ∈ Finset.range M, vf i k * star (vf i k')) := by
            rw [Finset.sum_comm]
            refine Finset.sum_congr rfl fun k _ => ?_
            rw [Finset.sum_comm]
            refine Finset.sum_congr rfl fun k' _ => ?_
            rw [Finset.mul_sum]
            exact Finset.sum_congr rfl fun i _ => by ring
        _ = ∑ k ∈ Finset.range Msub, ∑ k' ∈ Finset.range Msub,
              (c k * star (c k')) * (if k = k' then 1 else 0) := by
            refine Finset.sum_congr rfl fun k hk => Finset.sum_congr rfl fun k' hk' => ?_
            rw [hdelta k hk k' hk']
        _ = ∑ k ∈ Finset.range Msub, c k * star (c k) := by
            refine Finset.sum_congr rfl fun k hk => ?_
            rw [Finset.sum_eq_single k]
            · rw [if_pos rfl, mul_one]
            · intro k' _ hk'
              rw [if_neg (fun h => hk' h.symm), mul_zero]
            · intro h
              exact absurd hk h
        _ = ∑ k ∈ Finset.range Msub, ((Complex.normSq (c k) : ℝ) : ℂ) := by
            refine Finset.sum_congr rfl fun k _ => ?_
            rw [Complex.star_def, Complex.mul_conj]
    exact_mod_cast hC
  have hR : (∑ i ∈ Finset.range M, Complex.abs (∑ j ∈ Finset.range M,
      (∑ k ∈ Finset.range Msub, vf i k * star (vf j k)) * s j) ^ 2)
      = ∑ k ∈ Finset.range Msub, Complex.normSq (c k) := by
    calc ∑ i ∈ Finset.range M, Complex.abs (∑ j ∈ Finset.range M,
          (∑ k ∈ Finset.range Msub, vf i k * star (vf j k)) * s j) ^ 2
        = ∑ i ∈ Finset.range M, Complex.normSq (∑ j ∈ Finset.range M,
            (∑ k ∈ Finset.range Msub, vf i k * star (vf j k)) * s j) := by
          exact Finset.sum_congr rfl fun i _ => Complex.sq_abs _
      _ = ∑ i ∈ Finset.range M,
            Complex.normSq (∑ k ∈ Finset.range Msub, vf i k * c k) := by
          exact Finset.sum_congr rfl fun i _ => congrArg Complex.normSq (hyi i)
      _ = ∑ k ∈ Finset.range Msub, Complex.normSq (c k) := hsum2
  rw [hquad, habs]
  exact hR.symm

/-- **C9.** Under the contract of `np.linalg.eigh` (orthonormal eigenvector
columns `v`, eigenvalues `w` in ascending order diagonalizing the per-bin
covariance), `music_ssl` retains all but the last — hence all but a
maximal-eigenvalue — eigenvector as the noise subspace (signal subspace of
dimension exactly 1 regardless of channel count), and returns the first
direction index minimizing the squared-magnitude energy of the projection of
its steering vectors onto the noise subspaces, summed over frequency bins. -/
theorem music_ssl_spec (M T F A : ℕ) (stft sv : ℕ → ℕ → ℕ → ℂ)
    (mask : Option (ℕ × ℕ × (ℕ → ℕ → ℝ))) (v : ℕ → ℕ → ℕ → ℂ)
    (w : ℕ → ℕ → ℝ) (hA : 0 < A)
    (hT : maskT T mask = T) (hF : maskF F mask = F)
    (horth : ∀ f, f < F → ∀ k, k < M → ∀ k', k' < M →
      (∑ a ∈ Finset.range M, star (v f a k) * v f a k')
        = if k = k' then 1 else 0)
    (hdiag : ∀ f, f < F → ∀ a, a < M → ∀ b, b < M →
      musicCovar T F (maskT T mask) (maskF F mask) stft (maskW mask) f a b
        = ∑ k ∈ Finset.range M, v f a k * ((w f k : ℝ) : ℂ) * star (v f b k))
    (hasc : ∀ f, f < F → ∀ i, i < M → ∀ j, j < M → i ≤ j → w f i ≤ w f j) :
    music_ssl M T F A M F stft sv mask v
      = Except.ok (argminR A (fun a => ∑ f ∈ Finset.range F,
          ∑ i ∈ Finset.range M, Complex.abs (∑ j ∈ Finset.range M,
            musicNoiseCovar (M - 1) v f i j * sv a j f) ^ 2))
    ∧ (∀ f, f < F → ∀ k, k < M → w f k ≤ w f (M - 1)) := by
  constructor
  · simp only [music_ssl, hT, hF, bdim_self]
    rw [if_pos ⟨bcompat_self T, bcompat_self F⟩]
    rw [if_pos ⟨bcompat_self M, bcompat_self F⟩]
    rw [if_neg hA.ne']
    refine congrArg (fun h => Except.ok (argminR A h)) ?_
    funext a
    refine Finset.sum_congr rfl fun f hf => ?_
    simp only [bidx_lt (Finset.mem_range.mp hf)]
    have hplain : (∑ i ∈ Finset.range M, ∑ j ∈ Finset.range M,
        star (sv a (bidx M i) f) *
          musicNoiseCovar (M - 1) v f (bidx M i) (bidx M j) *
            sv a (bidx M j) f)
        = ∑ i ∈ Finset.range M, ∑ j ∈ Finset.range M,
            star (sv a i f) * musicNoiseCovar (M - 1) v f i j *
              sv a j f := by
      refine Finset.sum_congr rfl fun i hi => Finset.sum_congr rfl fun j hj => ?_
      rw [bidx_lt (Finset.mem_range.mp hi), bidx_lt (Finset.mem_range.mp hj)]
    rw [hplain]
    simp only [musicNoiseCovar]
    exact abs_noise_quadform_eq_energy M (M - 1) (v f) (fun j => sv a j f)
      (fun k hk k' hk' => horth f (Finset.mem_range.mp hf)
        k (hk.trans_le (Nat.sub_le M 1)) k' (hk'.trans_le (Nat.sub_le M 1)))
  · intro f hf k hk
    exact hasc f hf k hk (M - 1) (by omega) (by omega)

theorem music_ssl_spec_witness :
    music_ssl 1 1 1 1 1 1 (fun _ _ _ => 1) (fun _ _ _ => 1) Option.none
        (fun _ _ _ => 1)
      = Except.ok (argminR 1 (fun a => ∑ f ∈ Finset.range 1,
          ∑ i ∈ Finset.range 1, Complex.abs (∑ j ∈ Finset.range 1,
            musicNoiseCovar (1 - 1) (fun _ _ _ => 1) f i j *
              (fun _ _ _ => (1 : ℂ)) a j f) ^ 2)) :=
  (music_ssl_spec 1 1 1 1 (fun _ _ _ => 1) (fun _ _ _ => 1) Option.none
    (fun _ _ _ => 1) (fun _ _ => 1) (by norm_num) rfl rfl
    (fun f hf k hk k' hk' => by
      interval_cases k
      interval_cases k'
      simp)
    (fun f hf a ha b hb => by
      interval_cases a
      interval_cases b
      simp [musicCovar, maskT, maskF, maskW, bidx, bdim])
    (fun f hf i hi j hj hij => le_refl _)).1

end Ssl

namespace Ipd

theorem ipdFold_bad_index (N T' Fq : ℕ) (data : List ℕ → ℂ)
    (useCos useSin : Bool) :
    ∀ (l : List (List ℤ)) (p : List ℤ), p ∈ l →
      ((N : ℤ) ≤ p.getD 0 0 ∨ (N : ℤ) ≤ p.getD 1 0) →
      (ipdFold N T' Fq data useCos useSin l).isOk = false := by
  intro l
  induction l with
  | nil => intro p hp _; cases hp
  | cons q rest ih =>
    intro p hp hbad
    simp only [ipdFold]
    rcases List.mem_cons.mp hp with hpq | hpr
    · subst hpq
      by_cases h2 : p.length ≠ 2
      · rw [if_pos h2]; rfl
      · rw [if_neg h2]
        by_cases hR : (N : ℤ) < p.getD 1 0
        · rw [if_pos hR]; rfl
        · rw [if_neg hR]
          by_cases hL : ¬ idxOK N (p.getD 0 0)
          · rw [if_pos hL]; rfl
          · rw [if_neg hL]
            by_cases hRR : ¬ idxOK N (p.getD 1 0)
            · rw [if_pos hRR]; rfl
            · exfalso
              push_neg at hL hRR
              rcases hbad with hb | hb
              · exact absurd hb (not_le.mpr hL.2)
              · exact absurd hb (not_le.mpr hRR.2)
    · by_cases h2 : q.length ≠ 2
      · rw [if_pos h2]; rfl
      · rw [if_neg h2]
        by_cases hR : (N : ℤ) < q.getD 1 0
        · rw [if_pos hR]; rfl
        · rw [if_neg hR]
          by_cases hL : ¬ idxOK N (q.getD 0 0)
          · rw [if_pos hL]; rfl
          · rw [if_neg hL]
            by_cases hRR : ¬ idxOK N (q.getD 1 0)
            · rw [if_pos hRR]; rfl
            · rw [if_neg hRR]
              have hrest := ih p hpr hbad
              cases hrec : ipdFold N T' Fq data useCos useSin rest with
              | ok val =>
                rw [hrec] at hrest
                exact absurd hrest (by simp [Except.isOk, Except.toBool])
              | error msg => rfl

/-- **C8** (counterexample).  A 3-axis spectrogram with a single channel
(shape `(1, T, F)`) does **not** fail in the IPD branch when the requested
pair is `(0, 0)`: the `ndim < 3` guard passes, the index checks pass, and
the IPD feature is computed and returned. -/
theorem ipd_one_channel_pair_ok :
    (compute_spatial_feats_ipd [1, 1, 1] (fun _ => 1) [[0, 0]]
        false false).isOk = true := by
  simp only [compute_spatial_feats_ipd]
  rw [if_neg (by norm_num)]
  simp only [ipdFold]
  rw [if_neg (by norm_num)]
  rw [if_neg (by decide)]
  rw [if_neg (by decide)]
  rw [if_neg (by decide)]
  rfl

/-- **C8** (amended).  The IPD branch of `compute_spatial_feats` fails with
the `ValueError` whenever the input has fewer than 3 axes (the
single-channel `T x F` layout); a 3-axis one-channel input does not fail by
itself, but any requested pair index (left or right) at least the channel
count makes the call fail — via the explicit `R > S.shape[0]` check or
numpy's `IndexError` — before that pair's IPD feature is returned. -/
theorem compute_spatial_feats_ipd_errors (shape : List ℕ) (data : List ℕ → ℂ)
    (pairs : List (List ℤ)) (useCos useSin : Bool) :
    (shape.length < 3 →
      compute_spatial_feats_ipd shape data pairs useCos useSin
        = Except.error "Only one-channel STFT available")
    ∧ ((∃ p ∈ pairs, ((shape.getD 0 0 : ℤ) ≤ p.getD 0 0 ∨
          (shape.getD 0 0 : ℤ) ≤ p.getD 1 0)) →
        (compute_spatial_feats_ipd shape data pairs useCos useSin).isOk
          = false) := by
  constructor
  · intro h
    simp only [compute_spatial_feats_ipd]
    rw [if_pos h]
  · rintro ⟨p, hp, hbad⟩
    simp only [compute_spatial_feats_ipd]
    by_cases h3 : shape.length < 3
    · rw [if_pos h3]; rfl
    · rw [if_neg h3]
      have hfold := ipdFold_bad_index (shape.getD 0 0) (shape.getD 1 0)
        (shape.getD 2 0) data useCos useSin pairs p hp hbad
      cases hrec : ipdFold (shape.getD 0 0) (shape.getD 1 0) (shape.getD 2 0)
          data useCos useSin pairs with
      | ok val =>
        rw [hrec] at hfold
        exact absurd hfold (by simp [Except.isOk, Except.toBool])
      | error msg => rfl

theorem compute_spatial_feats_ipd_errors_witness :
    compute_spatial_feats_ipd [2, 1] (fun _ => 1) [[0, 1]] false false
      = Except.error "Only one-channel STFT available"
    ∧ (compute_spatial_feats_ipd [1, 1, 1] (fun _ => 1) [[0, 1]]
        false false).isOk = false :=
  ⟨(compute_spatial_feats_ipd_errors [2, 1] (fun _ => 1) [[0, 1]]
      false false).1 (by norm_num),
   (compute_spatial_feats_ipd_errors [1, 1, 1] (fun _ => 1) [[0, 1]]
      false false).2 ⟨[0, 1], List.mem_singleton.mpr rfl,
        Or.inr (by norm_num)⟩⟩

end Ipd

namespace Oracle

/-- **C10.** For mask type `"ibm"`, `compute_mask` returns one boolean mask
per target, the `s`-th true exactly where `s` is the (first) argmax of the
target magnitudes; per time-frequency cell exactly one mask is 1 and the
sum of all masks is 1 (the all-ones array). -/
theorem compute_mask_ibm_partition (mixture : ℕ → ℕ → ℂ)
    (targets : List (ℕ → ℕ → ℂ)) (eps : ℝ) (hK : 0 < targets.length) :
    compute_mask mixture targets MaskType.ibm eps
      = MaskOut.bools ((List.range targets.length).map fun s =>
          fun t f => ibmMaxIndex targets t f == s)
    ∧ ∀ t f,
      ((Finset.range targets.length).filter
          (fun s => ibmMaxIndex targets t f = s)).card = 1
      ∧ (∑ s ∈ Finset.range targets.length,
          (if ibmMaxIndex targets t f = s then 1 else 0) : ℕ) = 1 := by
  constructor
  · simp only [compute_mask]
    rw [if_pos trivial]
  · intro t f
    have hlt : ibmMaxIndex targets t f < targets.length := argmaxR_lt hK _
    constructor
    · rw [Finset.filter_eq (Finset.range targets.length)
        (ibmMaxIndex targets t f)]
      rw [if_pos (Finset.mem_range.mpr hlt), Finset.card_singleton]
    · rw [Finset.sum_ite_eq (Finset.range targets.length)
        (ibmMaxIndex targets t f) (fun _ => 1)]
      rw [if_pos (Finset.mem_range.mpr hlt)]

theorem compute_mask_ibm_partition_witness :
    compute_mask (fun _ _ => 1) [fun _ _ => 1] MaskType.ibm 1
      = MaskOut.bools ((List.range (List.length
          ([fun _ _ => 1] : List (ℕ → ℕ → ℂ)))).map fun s =>
          fun t f => ibmMaxIndex [fun _ _ => 1] t f == s) :=
  (compute_mask_ibm_partition (fun _ _ => 1) [fun _ _ => 1] 1
    (by simp)).1

end Oracle
